import Mathlib

/-!
Verification development for the `egui-treeize` node-graph widget engine.

The development shallowly embeds the core of the crate:

* the graph store (`Treeize`): node arena, deduplicated wire set, draw order.
  The store type itself lives in the crate root (`lib.rs`), which is not part
  of the provided sources; its operations are modelled from the design
  specification (§3 data model, §4.1 GraphStore operations).
* the deferred-mutation effect system (`src/ui/effect.rs`), translated
  directly from the source.
* the tree layout engine (`src/layout.rs`), translated directly from the
  source.  The recursive walks of the layout engine are presented with an
  explicit fuel parameter: the Rust recursion has no depth guard, so a run
  that would recurse forever is one that exhausts every finite fuel.

Floating point (`f32`) arithmetic is modelled by exact rational arithmetic.
-/

set_option autoImplicit false

namespace Treeize4

/-- Identifier of an output pin: owning node plus output slot index
(`OutPinId` in the crate root). -/
structure OutPinId where
  node : Nat
  output : Nat
deriving DecidableEq

/-- Identifier of an input pin: owning node plus input slot index
(`InPinId` in the crate root). -/
structure InPinId where
  node : Nat
  input : Nat
deriving DecidableEq

/-- A wire is an ordered pair of an output pin and an input pin. -/
abbrev Wire := OutPinId × InPinId

/-- Modelled from the spec: `wire_pins` (crate root, missing from the
provided sources) packs an out-pin and an in-pin into a wire value. -/
def wire_pins (f : OutPinId) (i : InPinId) : Wire := (f, i)

/-- A stored node: caller payload, 2D position and the `open` display flag.
The source field `open` is a Lean keyword, so it is called `isOpen` here. -/
structure Node (T : Type) where
  value : T
  pos : ℚ × ℚ
  isOpen : Bool
deriving DecidableEq

/-- First-match association-list lookup, standing in for arena/hash-map
lookup in the model. -/
def assocFind {α : Type} : List (Nat × α) → Nat → Option α
  | [], _ => none
  | p :: ps, id => if p.1 = id then some p.2 else assocFind ps id

/-- Modelled from the spec: the graph store `Treeize<T>` (crate root,
missing from the provided sources) owns the node arena, the deduplicated
wire set and the draw order (§3).  The arena is modelled as an association
list with a fresh-id counter, the wire set as a duplicate-free list in
insertion order. -/
structure Treeize (T : Type) where
  next_id : Nat
  nodes : List (Nat × Node T)
  wires : List Wire
  draw_order : List Nat

/-- Modelled from the spec: arena membership test (`self.nodes.contains`). -/
def Treeize.contains {T : Type} (t : Treeize T) (id : Nat) : Bool :=
  (assocFind t.nodes id).isSome

/-- Point update of one arena slot, leaving every other entry unchanged. -/
def updateNode {T : Type} (nodes : List (Nat × Node T)) (id : Nat)
    (f : Node T → Node T) : List (Nat × Node T) :=
  nodes.map (fun p => if p.1 = id then (p.1, f p.2) else p)

/-- Modelled from the spec: idempotent insertion into the deduplicated wire
set (§4.1 `connect`: inserting an existing pair is a no-op). -/
def wiresInsert (ws : List Wire) (w : Wire) : List Wire :=
  if w ∈ ws then ws else ws ++ [w]

/-- Modelled from the spec: idempotent removal from the wire set (§4.1). -/
def wiresRemove (ws : List Wire) (w : Wire) : List Wire :=
  ws.filter (fun x => x ≠ w)

/-- Modelled from the spec: remove all wires whose out-pin matches (§4.1
`drop_outputs`). -/
def wiresDropOutputs (ws : List Wire) (pin : OutPinId) : List Wire :=
  ws.filter (fun x => x.1 ≠ pin)

/-- Modelled from the spec: remove all wires whose in-pin matches (§4.1
`drop_inputs`). -/
def wiresDropInputs (ws : List Wire) (pin : InPinId) : List Wire :=
  ws.filter (fun x => x.2 ≠ pin)

/-- Modelled from the spec: node removal (§3 lifecycle, §4.1 `remove`):
drop the node from the arena, drop every wire touching one of its pins, and
prune it from the draw order. -/
def Treeize.remove_node {T : Type} (t : Treeize T) (id : Nat) : Treeize T :=
  { t with
    nodes := t.nodes.filter (fun p => p.1 ≠ id)
    wires := t.wires.filter (fun w => w.1.node ≠ id && w.2.node ≠ id)
    draw_order := t.draw_order.filter (fun n => n ≠ id) }

/-- The deferred mutation commands of `src/ui/effect.rs`.  The source field
names `from`/`open` are Lean keywords and appear here as `f`/`isOpen`. -/
inductive Effect (T : Type) where
  | InsertNode (pos : ℚ × ℚ) (node : T)
  | RemoveNode (node : Nat)
  | OpenNode (node : Nat) (isOpen : Bool)
  | Connect (f : OutPinId) (i : InPinId)
  | Disconnect (f : OutPinId) (i : InPinId)
  | DropOutputs (pin : OutPinId)
  | DropInputs (pin : InPinId)
  | Closure (f : Treeize T → Treeize T)

/-- The node ids an effect refers to (the existence checks performed by
`apply_effect` are exactly on these ids). -/
def Effect.refs {T : Type} : Effect T → List Nat
  | .InsertNode _ _ => []
  | .RemoveNode n => [n]
  | .OpenNode n _ => [n]
  | .Connect f i => [f.node, i.node]
  | .Disconnect f i => [f.node, i.node]
  | .DropOutputs pin => [pin.node]
  | .DropInputs pin => [pin.node]
  | .Closure _ => []

/-- The ordered effect buffer (`Effects<T>` in `src/ui/effect.rs`). -/
structure Effects (T : Type) where
  effects : List (Effect T)

/-- Submission pushes to the end of the buffer (`Effects::connect`). -/
def Effects.connect {T : Type} (e : Effects T) (f : OutPinId) (i : InPinId) :
    Effects T :=
  { effects := e.effects ++ [Effect.Connect f i] }

/-- Submission pushes to the end of the buffer (`Effects::remove_node`). -/
def Effects.remove_node {T : Type} (e : Effects T) (node : Nat) : Effects T :=
  { effects := e.effects ++ [Effect.RemoveNode node] }

/-- One step of `Treeize::apply_effect` (`src/ui/effect.rs`, lines 113 to
151), translated case by case.  The slab insertion of `InsertNode` and the
store operations of the other branches are the spec-modelled operations
above. -/
def Treeize.apply_effect {T : Type} (t : Treeize T) (e : Effect T) : Treeize T :=
  match e with
  | .InsertNode pos node =>
      let idx := t.next_id
      { t with
        next_id := idx + 1
        nodes := t.nodes ++ [(idx, { value := node, pos := pos, isOpen := true })]
        draw_order := t.draw_order ++ [idx] }
  | .RemoveNode node =>
      if t.contains node then t.remove_node node else t
  | .OpenNode node op =>
      if t.contains node then
        { t with nodes := updateNode t.nodes node (fun nd => { nd with isOpen := op }) }
      else t
  | .Connect f i =>
      if t.contains f.node && t.contains i.node then
        { t with wires := wiresInsert t.wires (wire_pins f i) }
      else t
  | .Disconnect f i =>
      if t.contains f.node && t.contains i.node then
        { t with wires := wiresRemove t.wires (wire_pins f i) }
      else t
  | .DropOutputs pin =>
      if t.contains pin.node then
        { t with wires := wiresDropOutputs t.wires pin }
      else t
  | .DropInputs pin =>
      if t.contains pin.node then
        { t with wires := wiresDropInputs t.wires pin }
      else t
  | .Closure f => f t

/-- `Treeize::apply_effects` (`src/ui/effect.rs`, lines 104 to 111): early
return on an empty buffer, otherwise replay every effect in order. -/
def Treeize.apply_effects {T : Type} (t : Treeize T) (es : Effects T) : Treeize T :=
  if es.effects.isEmpty then t
  else es.effects.foldl Treeize.apply_effect t

/-- `apply_layout` (`src/layout.rs`, lines 346 to 355): write each supplied
position into the store, skipping ids that are no longer present
(`get_node_info_mut` returning `None` is modelled by the containment
check). -/
def apply_layout {T : Type} (t : Treeize T) (positions : List (Nat × (ℚ × ℚ))) :
    Treeize T :=
  positions.foldl
    (fun acc p =>
      if acc.contains p.1 then
        { acc with nodes := updateNode acc.nodes p.1 (fun nd => { nd with pos := p.2 }) }
      else acc)
    t

/-! ### Helper lemmas about the wire set and arena updates -/

theorem mem_wiresInsert_self (ws : List Wire) (w : Wire) : w ∈ wiresInsert ws w := by
  unfold wiresInsert
  split
  · assumption
  · simp

theorem wiresInsert_of_mem (ws : List Wire) (w : Wire) (h : w ∈ ws) :
    wiresInsert ws w = ws := by
  simp [wiresInsert, h]

theorem not_mem_wiresRemove_self (ws : List Wire) (w : Wire) :
    w ∉ wiresRemove ws w := by
  simp [wiresRemove]

theorem updateNode_cons {T : Type} (p : Nat × Node T) (rest : List (Nat × Node T))
    (id : Nat) (f : Node T → Node T) :
    updateNode (p :: rest) id f
      = (if p.1 = id then (p.1, f p.2) else p) :: updateNode rest id f := rfl

theorem assocFind_updateNode {T : Type} (nodes : List (Nat × Node T)) (id j : Nat)
    (f : Node T → Node T) :
    assocFind (updateNode nodes id f) j
      = if j = id then (assocFind nodes j).map f else assocFind nodes j := by
  induction nodes with
  | nil => simp [updateNode, assocFind]
  | cons p rest ih =>
    rw [updateNode_cons]
    by_cases h1 : p.1 = id <;> by_cases h2 : p.1 = j
    · subst h1
      subst h2
      simp [assocFind]
    · subst h1
      have hj : j ≠ p.1 := fun h => h2 h.symm
      simp [assocFind, h2, hj, ih]
    · subst h2
      simp [assocFind, h1]
    · have hj : j ≠ p.1 := fun h => h2 h.symm
      simp [assocFind, h1, h2, hj, ih]

theorem updateNode_keys {T : Type} (nodes : List (Nat × Node T)) (id : Nat)
    (f : Node T → Node T) :
    (updateNode nodes id f).map Prod.fst = nodes.map Prod.fst := by
  induction nodes with
  | nil => rfl
  | cons p rest ih =>
    by_cases h : p.1 = id <;> simp [updateNode, h] at ih ⊢ <;> exact ih

/-! ### Claims about the effect system -/

/-- Claim C3: `apply_effects` replays the buffered effects in exactly the
order they were submitted, and every effect among RemoveNode, OpenNode,
Connect, Disconnect, DropOutputs, DropInputs whose referenced node is not
present in the store at the time it is applied is a no-op that leaves the
store unchanged and never signals an error. -/
theorem apply_effects_ordered_and_skips_missing {T : Type} (t : Treeize T)
    (es : Effects T) :
    t.apply_effects es = es.effects.foldl Treeize.apply_effect t ∧
    (∀ (u : Treeize T) (e : Effect T),
      (∃ n ∈ e.refs, u.contains n = false) → u.apply_effect e = u) := by
  constructor
  · unfold Treeize.apply_effects
    cases es.effects <;> simp
  · rintro u e ⟨n, hn, hc⟩
    cases e with
    | InsertNode p v => simp [Effect.refs] at hn
    | RemoveNode m =>
        simp [Effect.refs] at hn
        subst hn
        simp [Treeize.apply_effect, hc]
    | OpenNode m op =>
        simp [Effect.refs] at hn
        subst hn
        simp [Treeize.apply_effect, hc]
    | Connect f i =>
        simp [Effect.refs] at hn
        rcases hn with h | h <;> subst h <;> simp [Treeize.apply_effect, hc]
    | Disconnect f i =>
        simp [Effect.refs] at hn
        rcases hn with h | h <;> subst h <;> simp [Treeize.apply_effect, hc]
    | DropOutputs pin =>
        simp [Effect.refs] at hn
        subst hn
        simp [Treeize.apply_effect, hc]
    | DropInputs pin =>
        simp [Effect.refs] at hn
        subst hn
        simp [Treeize.apply_effect, hc]
    | Closure f => simp [Effect.refs] at hn

/-- Concrete store with two nodes (ids 0 and 1) and no wires, used by the
witnesses. -/
def twoNodeStore : Treeize Nat :=
  { next_id := 2
    nodes := [(0, { value := 10, pos := (0, 0), isOpen := true }),
              (1, { value := 11, pos := (0, 0), isOpen := true })]
    wires := []
    draw_order := [0, 1] }

/-- Witness for C3: on a concrete store without node 5, removing node 5 is
a no-op. -/
theorem apply_effects_ordered_and_skips_missing_witness :
    twoNodeStore.apply_effect (Effect.RemoveNode 5) = twoNodeStore :=
  (apply_effects_ordered_and_skips_missing twoNodeStore ⟨[]⟩).2
    twoNodeStore (Effect.RemoveNode 5)
    ⟨5, by simp [Effect.refs], by decide⟩

/-- Claim C4: for a pin pair whose two nodes are present, `Connect` is
idempotent, and a subsequent `Disconnect` leaves a wire set in which the
pair is absent (no duplicate copy remains). -/
theorem connect_idempotent_and_disconnect_removes {T : Type} (t : Treeize T)
    (f : OutPinId) (i : InPinId)
    (h1 : t.contains f.node = true) (h2 : t.contains i.node = true) :
    (t.apply_effect (Effect.Connect f i)).apply_effect (Effect.Connect f i)
        = t.apply_effect (Effect.Connect f i) ∧
    wire_pins f i ∉
      (((t.apply_effect (Effect.Connect f i)).apply_effect
          (Effect.Connect f i)).apply_effect (Effect.Disconnect f i)).wires := by
  have hc : t.apply_effect (Effect.Connect f i)
      = { t with wires := wiresInsert t.wires (wire_pins f i) } := by
    simp [Treeize.apply_effect, h1, h2]
  have hcontains : ∀ ws, Treeize.contains { t with wires := ws } = t.contains := by
    intro ws
    funext id
    simp [Treeize.contains]
  have hidem : (t.apply_effect (Effect.Connect f i)).apply_effect (Effect.Connect f i)
      = t.apply_effect (Effect.Connect f i) := by
    rw [hc]
    simp [Treeize.apply_effect, hcontains, h1, h2,
      wiresInsert_of_mem _ _ (mem_wiresInsert_self t.wires (wire_pins f i))]
  refine ⟨hidem, ?_⟩
  rw [hidem, hc]
  simp only [Treeize.apply_effect, hcontains, h1, h2, Bool.and_self, if_true]
  exact not_mem_wiresRemove_self _ _

/-- Witness for C4 on the concrete two-node store. -/
theorem connect_idempotent_and_disconnect_removes_witness :
    (twoNodeStore.apply_effect (Effect.Connect ⟨0, 0⟩ ⟨1, 0⟩)).apply_effect
        (Effect.Connect ⟨0, 0⟩ ⟨1, 0⟩)
      = twoNodeStore.apply_effect (Effect.Connect ⟨0, 0⟩ ⟨1, 0⟩) ∧
    wire_pins ⟨0, 0⟩ ⟨1, 0⟩ ∉
      (((twoNodeStore.apply_effect (Effect.Connect ⟨0, 0⟩ ⟨1, 0⟩)).apply_effect
          (Effect.Connect ⟨0, 0⟩ ⟨1, 0⟩)).apply_effect
        (Effect.Disconnect ⟨0, 0⟩ ⟨1, 0⟩)).wires :=
  connect_idempotent_and_disconnect_removes twoNodeStore ⟨0, 0⟩ ⟨1, 0⟩
    (by decide) (by decide)

/-- Claim C9: `apply_layout` mutates only the position field of nodes that
appear in the supplied mapping and are present in the store.  The wire set,
draw order, id counter, arena key sequence, every payload, every open flag,
and the whole entry of any id not named in the mapping are unchanged;
mapping entries whose id is not in the store cause no mutation at all. -/
theorem apply_layout_only_positions {T : Type} (t : Treeize T)
    (ps : List (Nat × (ℚ × ℚ))) :
    (apply_layout t ps).wires = t.wires ∧
    (apply_layout t ps).draw_order = t.draw_order ∧
    (apply_layout t ps).next_id = t.next_id ∧
    (apply_layout t ps).nodes.map Prod.fst = t.nodes.map Prod.fst ∧
    (∀ id, (assocFind (apply_layout t ps).nodes id).map Node.value
        = (assocFind t.nodes id).map Node.value) ∧
    (∀ id, (assocFind (apply_layout t ps).nodes id).map Node.isOpen
        = (assocFind t.nodes id).map Node.isOpen) ∧
    (∀ id, (∀ q, (id, q) ∉ ps) →
        assocFind (apply_layout t ps).nodes id = assocFind t.nodes id) := by
  induction ps generalizing t with
  | nil =>
    simp [apply_layout]
  | cons p rest ih =>
    have hstep : apply_layout t (p :: rest)
        = apply_layout
            (if t.contains p.1 then
              { t with nodes := updateNode t.nodes p.1 (fun nd => { nd with pos := p.2 }) }
            else t) rest := by
      simp only [apply_layout, List.foldl_cons]
    set t1 := (if t.contains p.1 then
        { t with nodes := updateNode t.nodes p.1 (fun nd => { nd with pos := p.2 }) }
      else t) with ht1
    have hw : t1.wires = t.wires := by
      rw [ht1]; split <;> rfl
    have hd : t1.draw_order = t.draw_order := by
      rw [ht1]; split <;> rfl
    have hn : t1.next_id = t.next_id := by
      rw [ht1]; split <;> rfl
    have hk : t1.nodes.map Prod.fst = t.nodes.map Prod.fst := by
      rw [ht1]; split
      · simpa using updateNode_keys t.nodes p.1 (fun nd => { nd with pos := p.2 })
      · rfl
    have hv : ∀ id, (assocFind t1.nodes id).map Node.value
        = (assocFind t.nodes id).map Node.value := by
      intro id
      rw [ht1]; split
      · simp only [assocFind_updateNode]
        split
        · simp [Option.map_map]
          rfl
        · rfl
      · rfl
    have ho : ∀ id, (assocFind t1.nodes id).map Node.isOpen
        = (assocFind t.nodes id).map Node.isOpen := by
      intro id
      rw [ht1]; split
      · simp only [assocFind_updateNode]
        split
        · simp [Option.map_map]
          rfl
        · rfl
      · rfl
    have hmiss : ∀ id, id ≠ p.1 → assocFind t1.nodes id = assocFind t.nodes id := by
      intro id hid
      rw [ht1]; split
      · simp [assocFind_updateNode, hid]
      · rfl
    obtain ⟨iw, idr, ini, ik, iv, io, im⟩ := ih t1
    rw [hstep]
    refine ⟨iw.trans hw, idr.trans hd, ini.trans hn, ik.trans hk, ?_, ?_, ?_⟩
    · intro id
      exact (iv id).trans (hv id)
    · intro id
      exact (io id).trans (ho id)
    · intro id hnotin
      have h1 : ∀ q, (id, q) ∉ rest := by
        intro q hq
        exact hnotin q (List.mem_cons_of_mem _ hq)
      have h2 : id ≠ p.1 := by
        intro he
        apply hnotin p.2
        rw [he]
        exact List.mem_cons_self _ _
      exact (im id h1).trans (hmiss id h2)

/-- Witness for C9: applying a one-entry layout mapping on the concrete
store leaves the entry of an unrelated id untouched. -/
theorem apply_layout_only_positions_witness :
    assocFind (apply_layout twoNodeStore [(0, (5, 5))]).nodes 3
      = assocFind twoNodeStore.nodes 3 :=
  (apply_layout_only_positions twoNodeStore [(0, (5, 5))]).2.2.2.2.2.2 3
    (by
      intro q hq
      simp at hq)

/-- Claim C10: for a `Connect` effect whose two referenced nodes exist,
`apply_effect` inserts the wire into the wire set regardless of the
slot-index values carried by the pin ids: no validation against any
per-node pin count is performed. -/
theorem connect_ignores_slot_indices {T : Type} (t : Treeize T)
    (nf ni a b : Nat)
    (h1 : t.contains nf = true) (h2 : t.contains ni = true) :
    wire_pins ⟨nf, a⟩ ⟨ni, b⟩
      ∈ (t.apply_effect (Effect.Connect ⟨nf, a⟩ ⟨ni, b⟩)).wires := by
  simp only [Treeize.apply_effect, h1, h2, Bool.and_self, if_true]
  exact mem_wiresInsert_self _ _

/-- Witness for C10: a wire addressing the absurd slot indices 99 and 7 is
inserted on the concrete store just like any other wire. -/
theorem connect_ignores_slot_indices_witness :
    wire_pins ⟨0, 99⟩ ⟨1, 7⟩
      ∈ (twoNodeStore.apply_effect (Effect.Connect ⟨0, 99⟩ ⟨1, 7⟩)).wires :=
  connect_ignores_slot_indices twoNodeStore 0 1 99 7 (by decide) (by decide)

/-! ### The layout engine (`src/layout.rs`)

`f32` arithmetic is modelled over `ℚ`.  The recursive walks carry an
explicit fuel argument; the Rust source recurses without any depth guard,
so a run that would overflow the stack is modelled as one returning `none`
for every fuel value. -/

/-- `LayoutConfig` (`src/layout.rs`, lines 13 to 22). -/
structure LayoutConfig where
  horizontal_spacing : ℚ
  vertical_spacing : ℚ
  start_pos : ℚ × ℚ

/-- The `Default` instance for `LayoutConfig` (lines 24 to 28). -/
def LayoutConfig.default : LayoutConfig :=
  { horizontal_spacing := 200, vertical_spacing := 150, start_pos := (0, 0) }

/-- The `NodeDimensionProvider` trait (lines 32 to 38) as a record of its
two methods. -/
structure NodeDimensionProvider where
  get_size : Nat → ℚ × ℚ
  get_children : Nat → List Nat

/-- A contour: per-depth `(left_edge, right_edge)` extents. -/
abbrev Contour := List (ℚ × ℚ)

/-- `LayoutNode` (lines 89 to 97). -/
structure LayoutNode where
  offset_x : ℚ
  contour : Contour
  width : ℚ
  height : ℚ
deriving DecidableEq

/-- `LayoutState.nodes`, modelled as an association list where insertion
prepends (first match wins, so prepending is hash-map overwrite). -/
abbrev LayoutState := List (Nat × LayoutNode)

/-- Hash-map style insert-or-overwrite into the layout state. -/
def stateInsert (st : LayoutState) (id : Nat) (ln : LayoutNode) : LayoutState :=
  (id, ln) :: st

/-- Point update of one layout-state slot (`state.nodes.get_mut`). -/
def assocUpdate {α : Type} (st : List (Nat × α)) (id : Nat) (f : α → α) :
    List (Nat × α) :=
  st.map (fun p => if p.1 = id then (p.1, f p.2) else p)

/-- The shift computation of `first_walk` (lines 148 to 157): the minimal
rightward shift of the new child clearing the accumulated contour by the
horizontal spacing, maximised over all shared depth levels. -/
def requiredShift (spacing : ℚ) (merged c : Contour) : ℚ :=
  (merged.zip c).foldl
    (fun shift lr =>
      let dist := (lr.1.2 + spacing) - lr.2.1
      if dist > shift then dist else shift)
    0

/-- The contour merge of `first_walk` (lines 163 to 175): extend existing
levels by min/max against the shifted child contour, append levels beyond
the current merged depth. -/
def mergeContour : Contour → Contour → ℚ → Contour
  | merged, [], _ => merged
  | [], (l, r) :: cs, shift => (l + shift, r + shift) :: mergeContour [] cs shift
  | (el, er) :: ms, (l, r) :: cs, shift =>
      (min el (l + shift), max er (r + shift)) :: mergeContour ms cs shift

/-- The sibling loop of `first_walk` (lines 139 to 177) for the second and
later children, threading the merged contour, the accumulated offsets and
`current_offset`. -/
def mergeChildrenAux (spacing : ℚ) :
    List Contour → Contour → List ℚ → ℚ → Contour × List ℚ × ℚ
  | [], merged, offsets, cur => (merged, offsets, cur)
  | c :: cs, merged, offsets, _ =>
      let shift := requiredShift spacing merged c
      mergeChildrenAux spacing cs (mergeContour merged c shift)
        (offsets ++ [shift]) shift

/-- The whole sibling loop of `first_walk`: the first subtree is taken
as-is with offset `0`, later subtrees are shifted and merged. -/
def mergeChildren (spacing : ℚ) : List Contour → Contour × List ℚ × ℚ
  | [] => ([], [], 0)
  | c :: cs => mergeChildrenAux spacing cs c [0] 0

/-- Steps 3 and 4 of `first_walk` (lines 179 to 203): recenter the merged
children contour under the parent and prepend the parent level; returns
the parent layout node and the final child offsets. -/
def buildInternal (w h spacing : ℚ) (childContours : List Contour) :
    LayoutNode × List ℚ :=
  let m := mergeChildren spacing childContours
  let children_center := m.2.2 / 2
  let shift_children_left := -children_center
  let final_contour := (-w / 2, w / 2) ::
    m.1.map (fun lr => (lr.1 + shift_children_left, lr.2 + shift_children_left))
  ({ offset_x := 0, contour := final_contour, width := w, height := h },
   m.2.1.map (fun o => o + shift_children_left))

/-- Strict left-to-right traversal of a child list threading a state, the
shape of the child loops in both walks. -/
def walkList {σ : Type} (walk : Nat → σ → Option σ) : List Nat → σ → Option σ
  | [], st => some st
  | c :: cs, st =>
      match walk c st with
      | none => none
      | some st1 => walkList walk cs st1

/-- Reading back the children contours from the state (the
`state.nodes.get(child_id).unwrap()` accesses of line 140). -/
def gatherContours (st : LayoutState) : List Nat → Option (List Contour)
  | [] => some []
  | c :: cs =>
      match assocFind st c, gatherContours st cs with
      | some ln, some rest => some (ln.contour :: rest)
      | _, _ => none

/-- Step 5 of `first_walk` (lines 196 to 202): write each child offset back
into the state, skipping absent ids. -/
def updateOffsets : LayoutState → List (Nat × ℚ) → LayoutState
  | st, [] => st
  | st, (c, o) :: rest =>
      updateOffsets (assocUpdate st c (fun ln => { ln with offset_x := o })) rest

/-- `first_walk` (lines 111 to 214): post-order contour computation.  The
source recursion has no depth guard; fuel exhaustion models unbounded
recursion. -/
def first_walk (p : NodeDimensionProvider) (cfg : LayoutConfig) :
    Nat → Nat → LayoutState → Option LayoutState
  | 0, _, _ => none
  | fuel + 1, node_id, st =>
      let wh := p.get_size node_id
      let children := p.get_children node_id
      if children.isEmpty then
        some (stateInsert st node_id
          { offset_x := 0, contour := [(-wh.1 / 2, wh.1 / 2)],
            width := wh.1, height := wh.2 })
      else
        match walkList (fun c s => first_walk p cfg fuel c s) children st with
        | none => none
        | some st1 =>
            match gatherContours st1 children with
            | none => none
            | some contours =>
                let bi := buildInternal wh.1 wh.2 cfg.horizontal_spacing contours
                let st2 := updateOffsets st1 (children.zip bi.2)
                some (stateInsert st2 node_id bi.1)

/-- `second_walk` (lines 217 to 242): pre-order absolute placement.  The
`unwrap` of line 226 is modelled by failing on an absent id. -/
def second_walk (p : NodeDimensionProvider) (cfg : LayoutConfig) :
    Nat → Nat → ℚ → ℚ → LayoutState → List (Nat × (ℚ × ℚ)) →
      Option (List (Nat × (ℚ × ℚ)))
  | 0, _, _, _, _, _ => none
  | fuel + 1, node_id, absolute_x, absolute_y, st, positions =>
      match assocFind st node_id with
      | none => none
      | some ln =>
          let center_x := absolute_x + ln.offset_x
          let top_left_x := center_x - ln.width / 2
          let positions1 := (node_id, (top_left_x, absolute_y)) :: positions
          let next_y := absolute_y + ln.height + cfg.vertical_spacing
          walkList (fun c ps => second_walk p cfg fuel c center_x next_y st ps)
            (p.get_children node_id) positions1

/-- The children map built by `TreeizeAdapter::new` (lines 56 to 66):
targets of wires through valid pins, grouped per source in wire order. -/
def children_of_wires (wires : List Wire) (has_output has_input : Nat → Bool)
    (id : Nat) : List Nat :=
  ((wires.filter
      (fun w => has_output w.1.node && has_input w.2.node && w.1.node == id)).map
    (fun w => w.2.node))

/-- `TreeizeAdapter::get_size` (lines 73 to 81): supplied size if present,
otherwise the configured spacings stand in for width and height. -/
def adapter_get_size (node_sizes : Option (List (Nat × (ℚ × ℚ))))
    (cfg : LayoutConfig) (id : Nat) : ℚ × ℚ :=
  match node_sizes with
  | some sizes =>
      match assocFind sizes id with
      | some sz => sz
      | none => (cfg.horizontal_spacing, cfg.vertical_spacing)
  | none => (cfg.horizontal_spacing, cfg.vertical_spacing)

/-- `TreeizeAdapter::new` plus its `NodeDimensionProvider` impl
(lines 48 to 86). -/
def TreeizeAdapter_new {T : Type} (t : Treeize T)
    (node_sizes : Option (List (Nat × (ℚ × ℚ))))
    (has_output has_input : Nat → Bool) (cfg : LayoutConfig) :
    NodeDimensionProvider :=
  { get_size := adapter_get_size node_sizes cfg
    get_children := children_of_wires t.wires has_output has_input }

/-- The `has_incoming` accumulation of `layout_tree` (lines 281 to 287):
nodes targeted by a wire through valid pins. -/
def has_incoming_list (wires : List Wire) (has_output has_input : Nat → Bool) :
    List Nat :=
  wires.foldl
    (fun acc w =>
      if has_output w.1.node && has_input w.2.node then w.2.node :: acc else acc)
    []

/-- Root discovery of `layout_tree` (lines 289 to 293): nodes with no valid
incoming wire, in arena order. -/
def root_nodes_of {T : Type} (t : Treeize T) (has_output has_input : Nat → Bool) :
    List Nat :=
  (t.nodes.map Prod.fst).filter
    (fun id => !(has_incoming_list t.wires has_output has_input).contains id)

/-- The per-root loop of `layout_tree` (lines 304 to 330): first walk,
tree-width measurement, second walk from the accumulated horizontal
cursor. -/
def layoutRoots (p : NodeDimensionProvider) (cfg : LayoutConfig) (fuel : Nat) :
    List Nat → LayoutState → ℚ → List (Nat × (ℚ × ℚ)) →
      Option (List (Nat × (ℚ × ℚ)))
  | [], _, _, positions => some positions
  | root :: roots, st, root_x_offset, positions =>
      match first_walk p cfg fuel root st with
      | none => none
      | some st1 =>
          match assocFind st1 root with
          | none => none
          | some root_node =>
              let tree_width :=
                (root_node.contour.map (fun lr => lr.2 - lr.1)).foldl max 0
              let root_center_x := cfg.start_pos.1 + root_x_offset + tree_width / 2
              match second_walk p cfg fuel root root_center_x cfg.start_pos.2 st1
                  positions with
              | none => none
              | some positions1 =>
                  layoutRoots p cfg fuel roots st1
                    (root_x_offset + tree_width + cfg.horizontal_spacing) positions1

/-- The final fallback pass of `layout_tree` (lines 332 to 335): every node
still without a position is placed at the configured start position. -/
def fillMissing (start_pos : ℚ × ℚ) :
    List Nat → List (Nat × (ℚ × ℚ)) → List (Nat × (ℚ × ℚ))
  | [], positions => positions
  | id :: ids, positions =>
      fillMissing start_pos ids
        (if (assocFind positions id).isSome then positions
         else (id, start_pos) :: positions)

/-- `layout_tree` (lines 268 to 338).  Returns `none` when the unguarded
recursion of the walks exceeds every finite depth budget `fuel`. -/
def layout_tree {T : Type} (fuel : Nat) (t : Treeize T) (config : LayoutConfig)
    (has_output has_input : Nat → Bool)
    (node_sizes : Option (List (Nat × (ℚ × ℚ)))) :
    Option (List (Nat × (ℚ × ℚ))) :=
  let adapter := TreeizeAdapter_new t node_sizes has_output has_input config
  let root_nodes := root_nodes_of t has_output has_input
  if root_nodes.isEmpty then
    some ((t.nodes.map Prod.fst).foldl
      (fun ps id => (id, config.start_pos) :: ps) [])
  else
    match layoutRoots adapter config fuel root_nodes [] 0 [] with
    | none => none
    | some positions =>
        some (fillMissing config.start_pos (t.nodes.map Prod.fst) positions)

/-! ### Concrete stores used by the layout claims -/

/-- Scenario store: root 0 with one output pin, wired to children 1 and 2. -/
def tree7 : Treeize Nat :=
  { next_id := 3
    nodes := [(0, { value := 0, pos := (0, 0), isOpen := true }),
              (1, { value := 1, pos := (0, 0), isOpen := true }),
              (2, { value := 2, pos := (0, 0), isOpen := true })]
    wires := [(⟨0, 0⟩, ⟨1, 0⟩), (⟨0, 0⟩, ⟨2, 0⟩)]
    draw_order := [0, 1, 2] }

/-- A store with a cycle reachable from a root: 0 → 1 → 2 → 1. -/
def cyclicStore : Treeize Nat :=
  { next_id := 3
    nodes := [(0, { value := 0, pos := (0, 0), isOpen := true }),
              (1, { value := 1, pos := (0, 0), isOpen := true }),
              (2, { value := 2, pos := (0, 0), isOpen := true })]
    wires := [(⟨0, 0⟩, ⟨1, 0⟩), (⟨1, 0⟩, ⟨2, 0⟩), (⟨2, 0⟩, ⟨1, 0⟩)]
    draw_order := [0, 1, 2] }

/-- The dimension provider `layout_tree` builds over `cyclicStore`. -/
def cyclicProvider : NodeDimensionProvider :=
  TreeizeAdapter_new cyclicStore none (fun _ => true) (fun _ => true)
    LayoutConfig.default

/-- On the two nodes of the cycle, `first_walk` exhausts every finite
recursion budget: the source recursion, which has no depth guard, never
returns. -/
theorem first_walk_cycle_none : ∀ (fuel : Nat) (st : LayoutState),
    first_walk cyclicProvider LayoutConfig.default fuel 1 st = none ∧
    first_walk cyclicProvider LayoutConfig.default fuel 2 st = none := by
  intro fuel
  induction fuel with
  | zero => intro st; exact ⟨rfl, rfl⟩
  | succ n ih =>
    intro st
    have hc1 : cyclicProvider.get_children 1 = [2] := by
      norm_num [cyclicProvider, TreeizeAdapter_new, children_of_wires, cyclicStore]
    have hc2 : cyclicProvider.get_children 2 = [1] := by
      norm_num [cyclicProvider, TreeizeAdapter_new, children_of_wires, cyclicStore]
    constructor
    · simp only [first_walk, hc1]
      simp [walkList, (ih st).2]
    · simp only [first_walk, hc2]
      simp [walkList, (ih st).1]

/-- Claim C1 (refuting half): on `cyclicStore`, whose cycle is reachable
from root 0, the `layout_tree` run exceeds every finite recursion depth:
there is no depth guard and no truncation to the fallback placement, so
the recursion of `first_walk` never terminates. -/
theorem layout_tree_diverges_on_cycle :
    root_nodes_of cyclicStore (fun _ => true) (fun _ => true) = [0] ∧
    ∀ fuel : Nat,
      layout_tree fuel cyclicStore LayoutConfig.default (fun _ => true)
        (fun _ => true) none = none := by
  have hroots : root_nodes_of cyclicStore (fun _ => true) (fun _ => true) = [0] := by
    decide
  refine ⟨hroots, ?_⟩
  intro fuel
  have hfw : first_walk cyclicProvider LayoutConfig.default fuel 0
      (([] : LayoutState)) = none := by
    cases fuel with
    | zero => rfl
    | succ n =>
      have hc0 : cyclicProvider.get_children 0 = [1] := by
        norm_num [cyclicProvider, TreeizeAdapter_new, children_of_wires, cyclicStore]
      simp only [first_walk, hc0]
      simp [walkList, (first_walk_cycle_none n []).1]
  simp only [layout_tree, hroots]
  simp [layoutRoots, cyclicProvider.eq_def.symm, hfw]

/-- Membership in the `has_incoming` accumulation. -/
theorem mem_has_incoming_foldl (ho hi : Nat → Bool) (id : Nat) :
    ∀ (wires : List Wire) (acc : List Nat),
      id ∈ wires.foldl
          (fun acc w =>
            if ho w.1.node && hi w.2.node then w.2.node :: acc else acc) acc
        ↔ id ∈ acc ∨
          ∃ w ∈ wires, (ho w.1.node && hi w.2.node) = true ∧ w.2.node = id := by
  intro wires
  induction wires with
  | nil => intro acc; simp
  | cons w ws ih =>
    intro acc
    simp only [List.foldl_cons]
    by_cases hw : (ho w.1.node && hi w.2.node) = true
    · rw [if_pos hw, ih]
      constructor
      · rintro (h | h)
        · rcases List.mem_cons.mp h with h1 | h1
          · exact Or.inr ⟨w, List.mem_cons_self _ _, hw, h1.symm⟩
          · exact Or.inl h1
        · rcases h with ⟨w1, hw1, hval, heq⟩
          exact Or.inr ⟨w1, List.mem_cons_of_mem _ hw1, hval, heq⟩
      · rintro (h | h)
        · exact Or.inl (List.mem_cons_of_mem _ h)
        · rcases h with ⟨w1, hw1, hval, heq⟩
          rcases List.mem_cons.mp hw1 with h1 | h1
          · subst h1
            exact Or.inl (heq ▸ List.mem_cons_self _ _)
          · exact Or.inr ⟨w1, h1, hval, heq⟩
    · rw [if_neg hw, ih]
      constructor
      · rintro (h | h)
        · exact Or.inl h
        · rcases h with ⟨w1, hw1, hval, heq⟩
          exact Or.inr ⟨w1, List.mem_cons_of_mem _ hw1, hval, heq⟩
      · rintro (h | h)
        · exact Or.inl h
        · rcases h with ⟨w1, hw1, hval, heq⟩
          rcases List.mem_cons.mp hw1 with h1 | h1
          · subst h1
            exact absurd hval hw
          · exact Or.inr ⟨w1, h1, hval, heq⟩

/-- Every id inserted by the constant-position fold is found with that
position. -/
theorem assocFind_const_fold (v : ℚ × ℚ) (id : Nat) :
    ∀ (ids : List Nat) (acc : List (Nat × (ℚ × ℚ))),
      (id ∈ ids ∨ assocFind acc id = some v) →
        assocFind (ids.foldl (fun ps i => (i, v) :: ps) acc) id = some v := by
  intro ids
  induction ids with
  | nil =>
    intro acc h
    rcases h with h | h
    · simp at h
    · simpa using h
  | cons a rest ih =>
    intro acc h
    simp only [List.foldl_cons]
    apply ih
    rcases h with h | h
    · rcases List.mem_cons.mp h with h1 | h1
      · right
        simp [assocFind, h1.symm]
      · exact Or.inl h1
    · right
      by_cases ha : a = id
      · simp [assocFind, ha]
      · simp [assocFind, ha, h]

/-- Claim C5: if every live node has a valid incoming wire (root discovery
finds no root), `layout_tree` maps every live node to the configured start
position. -/
theorem layout_rootless_all_start {T : Type} (fuel : Nat) (t : Treeize T)
    (cfg : LayoutConfig) (ho hi : Nat → Bool)
    (sizes : Option (List (Nat × (ℚ × ℚ))))
    (h : ∀ id ∈ t.nodes.map Prod.fst, ∃ w ∈ t.wires,
        (ho w.1.node && hi w.2.node) = true ∧ w.2.node = id) :
    ∃ ps, layout_tree fuel t cfg ho hi sizes = some ps ∧
      ∀ id ∈ t.nodes.map Prod.fst, assocFind ps id = some cfg.start_pos := by
  have hroots : root_nodes_of t ho hi = [] := by
    unfold root_nodes_of
    rw [List.filter_eq_nil_iff]
    intro id hid
    have hmem : id ∈ has_incoming_list t.wires ho hi := by
      rw [has_incoming_list, mem_has_incoming_foldl]
      exact Or.inr (h id hid)
    simp [List.contains, List.elem_iff, hmem]
  refine ⟨(t.nodes.map Prod.fst).foldl (fun ps id => (id, cfg.start_pos) :: ps) [], ?_, ?_⟩
  · simp only [layout_tree, hroots, List.isEmpty_nil, if_true]
  · intro id hid
    exact assocFind_const_fold cfg.start_pos id (t.nodes.map Prod.fst) []
      (Or.inl hid)

/-- A two-node store in which every node has an incoming wire. -/
def fullyCyclicStore : Treeize Nat :=
  { next_id := 2
    nodes := [(0, { value := 0, pos := (0, 0), isOpen := true }),
              (1, { value := 1, pos := (0, 0), isOpen := true })]
    wires := [(⟨0, 0⟩, ⟨1, 0⟩), (⟨1, 0⟩, ⟨0, 0⟩)]
    draw_order := [0, 1] }

/-- Witness for C5 on the concrete rootless two-node cycle. -/
theorem layout_rootless_all_start_witness :
    ∃ ps, layout_tree 1 fullyCyclicStore LayoutConfig.default (fun _ => true)
        (fun _ => true) none = some ps ∧
      ∀ id ∈ fullyCyclicStore.nodes.map Prod.fst,
        assocFind ps id = some LayoutConfig.default.start_pos :=
  layout_rootless_all_start 1 fullyCyclicStore LayoutConfig.default
    (fun _ => true) (fun _ => true) none (by decide)

/-- Claim C7: in the concrete scenario of a root (node 0) with children 1
and 2, spacing 200 and default sizes, the children's x positions differ by
exactly 400 and both children sit at the root's y plus the root's height
plus the vertical spacing. -/
theorem layout_scenario_root_two_children :
    ∃ ps, layout_tree 2 tree7 LayoutConfig.default (fun _ => true)
        (fun _ => true) none = some ps ∧
      ∃ pr p1 p2, assocFind ps 0 = some pr ∧ assocFind ps 1 = some p1 ∧
        assocFind ps 2 = some p2 ∧
        (p2.1 - p1.1 = 400 ∨ p1.1 - p2.1 = 400) ∧
        p1.2 = pr.2 + 150 + 150 ∧ p2.2 = pr.2 + 150 + 150 := by
  refine ⟨[(2, (400, 300)), (1, (0, 300)), (0, (200, 0))], ?_,
    (200, 0), (0, 300), (400, 300), ?_, ?_, ?_, ?_, ?_, ?_⟩
  · norm_num [layout_tree, tree7, LayoutConfig.default, TreeizeAdapter_new,
      adapter_get_size, children_of_wires, has_incoming_list, root_nodes_of,
      layoutRoots, first_walk, second_walk, walkList, gatherContours,
      updateOffsets, assocUpdate, assocFind, stateInsert, buildInternal,
      mergeChildren, mergeChildrenAux, mergeContour, requiredShift,
      fillMissing, max_def, min_def]
  · norm_num [assocFind]
  · norm_num [assocFind]
  · norm_num [assocFind]
  · norm_num
  · norm_num
  · norm_num

/-- One step of the per-root loop for a leaf root: the first walk stores
the single-level contour, the tree width is the contour span (folded
against 0), and the second walk records the top-left position derived from
the accumulated cursor. -/
theorem layoutRoots_leaf (p : NodeDimensionProvider) (cfg : LayoutConfig)
    (fuel : Nat) (r : Nat) (rest : List Nat) (st : LayoutState) (xoff : ℚ)
    (pos : List (Nat × (ℚ × ℚ))) (hr : p.get_children r = []) :
    layoutRoots p cfg (fuel + 1) (r :: rest) st xoff pos
      = layoutRoots p cfg (fuel + 1) rest
          (stateInsert st r
            { offset_x := 0,
              contour := [(-(p.get_size r).1 / 2, (p.get_size r).1 / 2)],
              width := (p.get_size r).1, height := (p.get_size r).2 })
          (xoff + max 0 (p.get_size r).1 + cfg.horizontal_spacing)
          ((r, (cfg.start_pos.1 + xoff + max 0 (p.get_size r).1 / 2
                - (p.get_size r).1 / 2, cfg.start_pos.2)) :: pos) := by
  simp only [layoutRoots, first_walk, hr, List.isEmpty_nil, if_true, stateInsert,
    assocFind, eq_self_iff_true, second_walk, walkList, List.map_cons,
    List.map_nil, List.foldl_cons, List.foldl_nil]
  ring_nf

/-- Claim C6: a graph of two disconnected single-node components makes
both nodes roots, packed side by side under the accumulating cursor: the
second-placed node's x position is at least the first-placed node's x plus
the first node's width plus the horizontal spacing. -/
theorem layout_forest_packing {T : Type} (t : Treeize T) (cfg : LayoutConfig)
    (sizes : Option (List (Nat × (ℚ × ℚ)))) (ho hi : Nat → Bool)
    (a b : Nat) (na nb : Node T) (fuel : Nat)
    (hab : a ≠ b) (hn : t.nodes = [(a, na), (b, nb)]) (hw : t.wires = []) :
    ∃ ps pa pb,
      layout_tree (fuel + 1) t cfg ho hi sizes = some ps ∧
      assocFind ps a = some pa ∧ assocFind ps b = some pb ∧
      pa.1 + (adapter_get_size sizes cfg a).1 + cfg.horizontal_spacing ≤ pb.1 := by
  have hba : b ≠ a := fun h => hab h.symm
  set p := TreeizeAdapter_new t sizes ho hi cfg with hp
  have hchild : ∀ id, p.get_children id = [] := by
    intro id
    simp [hp, TreeizeAdapter_new, children_of_wires, hw]
  have hsize : ∀ id, p.get_size id = adapter_get_size sizes cfg id := fun _ => rfl
  have hroots : root_nodes_of t ho hi = [a, b] := by
    simp [root_nodes_of, has_incoming_list, hn, hw, List.contains]
  have e1 := layoutRoots_leaf p cfg fuel a [b] [] 0 [] (hchild a)
  have e2 := layoutRoots_leaf p cfg fuel b []
      (stateInsert []
        a
        { offset_x := 0,
          contour := [(-(p.get_size a).1 / 2, (p.get_size a).1 / 2)],
          width := (p.get_size a).1, height := (p.get_size a).2 })
      (0 + max 0 (p.get_size a).1 + cfg.horizontal_spacing)
      ((a, (cfg.start_pos.1 + 0 + max 0 (p.get_size a).1 / 2
            - (p.get_size a).1 / 2, cfg.start_pos.2)) :: []) (hchild b)
  have hLT : layout_tree (fuel + 1) t cfg ho hi sizes
      = some ((b, (cfg.start_pos.1 + (0 + max 0 (p.get_size a).1 + cfg.horizontal_spacing)
              + max 0 (p.get_size b).1 / 2 - (p.get_size b).1 / 2, cfg.start_pos.2))
          :: (a, (cfg.start_pos.1 + 0 + max 0 (p.get_size a).1 / 2
              - (p.get_size a).1 / 2, cfg.start_pos.2)) :: []) := by
    simp only [layout_tree, hroots, List.isEmpty_cons, Bool.false_eq_true, if_false]
    rw [← hp, e1, e2]
    simp only [layoutRoots, hn, List.map_cons, List.map_nil, fillMissing,
      assocFind, if_neg hba, if_pos rfl, Option.isSome_some, if_true]
  refine ⟨_,
    (cfg.start_pos.1 + 0 + max 0 (p.get_size a).1 / 2
        - (p.get_size a).1 / 2, cfg.start_pos.2),
    (cfg.start_pos.1 + (0 + max 0 (p.get_size a).1 + cfg.horizontal_spacing)
        + max 0 (p.get_size b).1 / 2 - (p.get_size b).1 / 2, cfg.start_pos.2),
    hLT, ?_, ?_, ?_⟩
  · simp [assocFind, hba]
  · simp [assocFind]
  · have h1 : (p.get_size a).1 ≤ max 0 (p.get_size a).1 := le_max_right _ _
    have h2 : (p.get_size b).1 ≤ max 0 (p.get_size b).1 := le_max_right _ _
    have hs : (adapter_get_size sizes cfg a).1 = (p.get_size a).1 := (hsize a).symm ▸ rfl
    simp only [← hsize]
    linarith

/-- Witness for C6 on a concrete two-node wireless store: node 3 wide 40,
node 9 wide 60, spacing 25. -/
theorem layout_forest_packing_witness :
    ∃ ps pa pb,
      layout_tree (0 + 1)
          ({ next_id := 10
             nodes := [(3, { value := 0, pos := (0, 0), isOpen := true }),
                       (9, { value := 1, pos := (0, 0), isOpen := true })]
             wires := []
             draw_order := [3, 9] } : Treeize Nat)
          { horizontal_spacing := 25, vertical_spacing := 30, start_pos := (0, 0) }
          (fun _ => true) (fun _ => true)
          (some [(3, (40, 20)), (9, (60, 20))]) = some ps ∧
      assocFind ps 3 = some pa ∧ assocFind ps 9 = some pb ∧
      pa.1 + (adapter_get_size (some [(3, (40, 20)), (9, (60, 20))])
          { horizontal_spacing := 25, vertical_spacing := 30, start_pos := (0, 0) } 3).1
        + (25 : ℚ) ≤ pb.1 :=
  layout_forest_packing _ _ _ _ _ 3 9 _ _ 0 (by decide) rfl rfl

/-! ### Sibling non-overlap: the shift of `first_walk` clears every shared
depth level -/

/-- The folded shift only grows along the loop. -/
theorem requiredShift_foldl_ge_init (s : ℚ) :
    ∀ (l : List ((ℚ × ℚ) × (ℚ × ℚ))) (acc : ℚ),
      acc ≤ l.foldl
        (fun shift lr =>
          if (lr.1.2 + s) - lr.2.1 > shift then (lr.1.2 + s) - lr.2.1 else shift)
        acc := by
  intro l
  induction l with
  | nil => intro acc; exact le_refl acc
  | cons x xs ih =>
    intro acc
    simp only [List.foldl_cons]
    refine le_trans ?_ (ih _)
    by_cases hd : (x.1.2 + s) - x.2.1 > acc
    · rw [if_pos hd]
      linarith
    · rw [if_neg hd]

/-- The folded shift dominates the required distance at every shared depth
level of the zipped contours. -/
theorem requiredShift_foldl_ge (s : ℚ) :
    ∀ (merged c : Contour) (acc : ℚ) (d : Nat),
      d < merged.length → d < c.length →
      (merged.getD d (0, 0)).2 + s - (c.getD d (0, 0)).1
        ≤ (merged.zip c).foldl
            (fun shift lr =>
              if (lr.1.2 + s) - lr.2.1 > shift then (lr.1.2 + s) - lr.2.1
              else shift)
            acc := by
  intro merged
  induction merged with
  | nil =>
    intro c acc d h1 h2
    simp at h1
  | cons m ms ih =>
    intro c acc d h1 h2
    cases c with
    | nil => simp at h2
    | cons x xs =>
      simp only [List.zip_cons_cons, List.foldl_cons]
      cases d with
      | zero =>
        simp only [List.getD_cons_zero]
        refine le_trans ?_ (requiredShift_foldl_ge_init s _ _)
        by_cases hd : (m.2 + s) - x.1 > acc
        · rw [if_pos hd]
        · rw [if_neg hd]
          linarith
      | succ d =>
        simp only [List.getD_cons_succ]
        exact ih xs _ d (Nat.lt_of_succ_lt_succ h1) (Nat.lt_of_succ_lt_succ h2)

/-- The shift computed for a later sibling clears the accumulated contour
at every shared depth level. -/
theorem requiredShift_ge_depth (s : ℚ) (merged c : Contour) (d : Nat)
    (h1 : d < merged.length) (h2 : d < c.length) :
    (merged.getD d (0, 0)).2 + s - (c.getD d (0, 0)).1
      ≤ requiredShift s merged c :=
  requiredShift_foldl_ge s merged c 0 d h1 h2

/-- Merging never shortens the running contour: its depth is the max of
both depths. -/
theorem mergeContour_length : ∀ (c merged : Contour) (sh : ℚ),
    (mergeContour merged c sh).length = max merged.length c.length := by
  intro c
  induction c with
  | nil =>
    intro merged sh
    cases merged <;> simp [mergeContour]
  | cons x xs ih =>
    intro merged sh
    obtain ⟨l, r⟩ := x
    cases merged with
    | nil => simp [mergeContour, ih]
    | cons m ms =>
      obtain ⟨el, er⟩ := m
      simp [mergeContour, ih, Nat.succ_max_succ]

/-- After the merge, the running contour's right edge dominates the newly
merged child's shifted right edge at every depth of the child. -/
theorem mergeContour_right_le : ∀ (c merged : Contour) (sh : ℚ) (d : Nat),
    d < c.length →
    (c.getD d (0, 0)).2 + sh ≤ ((mergeContour merged c sh).getD d (0, 0)).2 := by
  intro c
  induction c with
  | nil =>
    intro merged sh d h
    simp at h
  | cons x xs ih =>
    intro merged sh d h
    obtain ⟨l, r⟩ := x
    cases merged with
    | nil =>
      cases d with
      | zero => simp [mergeContour]
      | succ d =>
        simp only [mergeContour, List.getD_cons_succ]
        exact ih [] sh d (Nat.lt_of_succ_lt_succ h)
    | cons m ms =>
      obtain ⟨el, er⟩ := m
      cases d with
      | zero => simp [mergeContour, le_max_right]
      | succ d =>
        simp only [mergeContour, List.getD_cons_succ]
        exact ih ms sh d (Nat.lt_of_succ_lt_succ h)

/-- The offsets computed for the second and later siblings, as a direct
recursion (accumulator-free reading of `mergeChildrenAux`). -/
def newOffsets (s : ℚ) : List Contour → Contour → List ℚ
  | [], _ => []
  | c :: cs, merged =>
      requiredShift s merged c ::
        newOffsets s cs (mergeContour merged c (requiredShift s merged c))

theorem mergeChildrenAux_offsets (s : ℚ) :
    ∀ (cs : List Contour) (merged : Contour) (offsets : List ℚ) (cur : ℚ),
      (mergeChildrenAux s cs merged offsets cur).2.1
        = offsets ++ newOffsets s cs merged := by
  intro cs
  induction cs with
  | nil =>
    intro merged offsets cur
    simp [mergeChildrenAux, newOffsets]
  | cons c cs ih =>
    intro merged offsets cur
    simp [mergeChildrenAux, newOffsets, ih]

theorem mergeChildren_offsets (s : ℚ) (c : Contour) (cs : List Contour) :
    (mergeChildren s (c :: cs)).2.1 = 0 :: newOffsets s cs c := by
  simp [mergeChildren, mergeChildrenAux_offsets]

theorem newOffsets_length (s : ℚ) :
    ∀ (cs : List Contour) (merged : Contour),
      (newOffsets s cs merged).length = cs.length := by
  intro cs
  induction cs with
  | nil => intro merged; rfl
  | cons c cs ih => intro merged; simp [newOffsets, ih]

/-- Two positioned contours keep a horizontal gap of at least `s` at every
depth level shared by both. -/
def GapOK (s : ℚ) (p1 p2 : Contour × ℚ) : Prop :=
  ∀ d : Nat, d < p1.1.length → d < p2.1.length →
    s ≤ ((p2.1.getD d (0, 0)).1 + p2.2) - ((p1.1.getD d (0, 0)).2 + p1.2)

/-- Core induction: along the sibling loop, every adjacent pair of
positioned subtree contours keeps the spacing gap at every shared depth,
provided the running merged contour dominates the previous sibling. -/
theorem newOffsets_chain (s : ℚ) :
    ∀ (cs : List Contour) (merged prev : Contour) (poff : ℚ),
      prev.length ≤ merged.length →
      (∀ d, d < prev.length →
        (prev.getD d (0, 0)).2 + poff ≤ (merged.getD d (0, 0)).2) →
      List.Chain' (GapOK s) ((prev, poff) :: cs.zip (newOffsets s cs merged)) := by
  intro cs
  induction cs with
  | nil =>
    intro merged prev poff h1 h2
    simp [newOffsets]
  | cons c cs ih =>
    intro merged prev poff h1 h2
    simp only [newOffsets, List.zip_cons_cons]
    refine List.Chain'.cons ?_ ?_
    · show GapOK s (prev, poff) (c, requiredShift s merged c)
      intro d hd1 hd2
      have hdm : d < merged.length := lt_of_lt_of_le hd1 h1
      have hance := requiredShift_ge_depth s merged c d hdm hd2
      have hdom := h2 d hd1
      show s ≤ (c.getD d (0, 0)).1 + requiredShift s merged c
        - ((prev.getD d (0, 0)).2 + poff)
      linarith
    · exact ih (mergeContour merged c (requiredShift s merged c)) c
        (requiredShift s merged c)
        (by rw [mergeContour_length]; exact le_max_right _ _)
        (fun d hd => mergeContour_right_le c merged (requiredShift s merged c) d hd)

/-- Claim C2: for every internal node processed by `first_walk`, the child
offsets returned by the sibling merge (`buildInternal`, the computation of
lines 139 to 203) keep, for every pair of adjacent sibling subtrees, a gap
of at least the configured horizontal spacing between the earlier
subtree's right contour edge and the later subtree's left contour edge at
every depth level shared by the two contours: the shift is the maximum
over all shared depths, not just the first. -/
theorem sibling_contours_gap (w h s : ℚ) (contours : List Contour) (i d : Nat)
    (hadj : i + 1 < contours.length)
    (hd1 : d < (contours.getD i []).length)
    (hd2 : d < (contours.getD (i + 1) []).length) :
    s ≤ ((contours.getD (i + 1) []).getD d (0, 0)).1
          + (buildInternal w h s contours).2.getD (i + 1) 0
        - (((contours.getD i []).getD d (0, 0)).2
          + (buildInternal w h s contours).2.getD i 0) := by
  cases contours with
  | nil => simp at hadj
  | cons c cs =>
    have hadj' : i + 1 < cs.length + 1 := by simpa using hadj
    set offs := (mergeChildren s (c :: cs)).2.1 with hoffs
    have hlen : offs.length = cs.length + 1 := by
      rw [hoffs, mergeChildren_offsets]
      simp [newOffsets_length]
    have hchain : List.Chain' (GapOK s) ((c :: cs).zip offs) := by
      rw [hoffs, mergeChildren_offsets]
      have hc := newOffsets_chain s cs c c 0 (le_refl _) (fun e he => by simp)
      simpa using hc
    have hi1 : i < (c :: cs).length := by simp; omega
    have hi2 : i + 1 < (c :: cs).length := by simpa using hadj'
    have hio : i < offs.length := by omega
    have hio2 : i + 1 < offs.length := by omega
    have hgap := List.chain'_iff_get.mp hchain i
      (by simp [List.length_zip, hlen]; omega)
    rw [List.get_eq_getElem, List.get_eq_getElem] at hgap
    simp only [List.getElem_zip] at hgap
    have he1 : (c :: cs).getD i [] = (c :: cs)[i] := List.getD_eq_getElem _ _ hi1
    have he2 : (c :: cs).getD (i + 1) [] = (c :: cs)[i + 1] :=
      List.getD_eq_getElem _ _ hi2
    have hbuild : ∀ (j : Nat) (hj : j < offs.length),
        (buildInternal w h s (c :: cs)).2.getD j 0
          = offs[j] + -((mergeChildren s (c :: cs)).2.2 / 2) := by
      intro j hj
      simp only [buildInternal, ← hoffs]
      rw [List.getD_eq_getElem _ _ (by simpa using hj), List.getElem_map]
    rw [he1] at hd1
    rw [he2] at hd2
    have hg := hgap d hd1 hd2
    rw [he1, he2, hbuild i hio, hbuild (i + 1) hio2]
    simp only at hg
    linarith

/-- Witness for C2: two single-level sibling contours of width 200 with
spacing 200 end up 200 apart at depth 0 (positions shift 0 and 400, group
recentering by 200). -/
theorem sibling_contours_gap_witness :
    (200 : ℚ) ≤ (([[(-100, 100)], [(-100, 100)]].getD (0 + 1) []).getD 0 (0, 0)).1
          + (buildInternal 200 150 200 [[(-100, 100)], [(-100, 100)]]).2.getD (0 + 1) 0
        - ((([[(-100, 100)], [(-100, 100)]].getD 0 []).getD 0 (0, 0)).2
          + (buildInternal 200 150 200 [[(-100, 100)], [(-100, 100)]]).2.getD 0 0) :=
  sibling_contours_gap 200 150 200 [[(-100, 100)], [(-100, 100)]] 0 0
    (by norm_num) (by norm_num) (by norm_num)

/-! ### Recentering of an internal node in `first_walk` -/

theorem assocUpdate_cons {α : Type} (p : Nat × α) (rest : List (Nat × α))
    (id : Nat) (f : α → α) :
    assocUpdate (p :: rest) id f
      = (if p.1 = id then (p.1, f p.2) else p) :: assocUpdate rest id f := rfl

theorem assocFind_assocUpdate {α : Type} (st : List (Nat × α)) (id j : Nat)
    (f : α → α) :
    assocFind (assocUpdate st id f) j
      = if j = id then (assocFind st j).map f else assocFind st j := by
  induction st with
  | nil => simp [assocUpdate, assocFind]
  | cons p rest ih =>
    rw [assocUpdate_cons]
    by_cases h1 : p.1 = id <;> by_cases h2 : p.1 = j
    · subst h1
      subst h2
      simp [assocFind]
    · subst h1
      have hj : j ≠ p.1 := fun h => h2 h.symm
      simp [assocFind, h2, hj, ih]
    · subst h2
      simp [assocFind, h1]
    · have hj : j ≠ p.1 := fun h => h2 h.symm
      simp [assocFind, h1, h2, hj, ih]

/-- A key never named by the offset write-back keeps its entry. -/
theorem assocFind_updateOffsets_not_mem :
    ∀ (pairs : List (Nat × ℚ)) (st : LayoutState) (id : Nat),
      id ∉ pairs.map Prod.fst →
      assocFind (updateOffsets st pairs) id = assocFind st id := by
  intro pairs
  induction pairs with
  | nil => intro st id h; rfl
  | cons q rest ih =>
    intro st id h
    simp only [List.map_cons, List.mem_cons] at h
    push_neg at h
    simp only [updateOffsets]
    rw [ih _ _ h.2, assocFind_assocUpdate, if_neg h.1]

/-- The offset write-back of step 5: with duplicate-free keys, the entry of
each named child keeps everything but its `offset_x`, which becomes the
supplied offset. -/
theorem assocFind_updateOffsets_of_mem :
    ∀ (pairs : List (Nat × ℚ)) (st : LayoutState) (id : Nat) (o : ℚ),
      (id, o) ∈ pairs → (pairs.map Prod.fst).Nodup →
      assocFind (updateOffsets st pairs) id
        = (assocFind st id).map (fun ln => { ln with offset_x := o }) := by
  intro pairs
  induction pairs with
  | nil => intro st id o h; simp at h
  | cons q rest ih =>
    intro st id o hmem hnd
    simp only [List.map_cons, List.nodup_cons] at hnd
    simp only [updateOffsets]
    rcases List.mem_cons.mp hmem with h1 | h1
    · have hq1 : q.1 = id := by rw [← h1]
      have hq2 : q.2 = o := by rw [← h1]
      have hnotin : id ∉ rest.map Prod.fst := hq1 ▸ hnd.1
      rw [assocFind_updateOffsets_not_mem rest _ id hnotin,
        assocFind_assocUpdate, if_pos hq1.symm, hq2]
    · have hne : id ≠ q.1 := by
        intro he
        exact hnd.1 (he ▸ (List.mem_map.mpr ⟨(id, o), h1, rfl⟩))
      rw [ih _ _ _ h1 hnd.2, assocFind_assocUpdate, if_neg hne]

theorem gatherContours_length (st : LayoutState) :
    ∀ (children : List Nat) (contours : List Contour),
      gatherContours st children = some contours →
      contours.length = children.length := by
  intro children
  induction children with
  | nil =>
    intro contours h
    simp only [gatherContours, Option.some.injEq] at h
    simp [← h]
  | cons c cs ih =>
    intro contours h
    simp only [gatherContours] at h
    cases hf : assocFind st c with
    | none => rw [hf] at h; simp at h
    | some ln =>
      rw [hf] at h
      cases hg : gatherContours st cs with
      | none => rw [hg] at h; simp at h
      | some rest =>
        rw [hg] at h
        have := ih rest hg
        simp only [Option.some.injEq] at h
        rw [← h]
        simp [this]

/-- Each gathered contour is the stored contour of the corresponding
child. -/
theorem gatherContours_find (st : LayoutState) :
    ∀ (children : List Nat) (contours : List Contour),
      gatherContours st children = some contours →
      ∀ i : Nat, i < children.length →
        ∃ ln, assocFind st (children.getD i 0) = some ln ∧
          ln.contour = contours.getD i [] := by
  intro children
  induction children with
  | nil =>
    intro contours h i hi
    simp at hi
  | cons c cs ih =>
    intro contours h i hi
    simp only [gatherContours] at h
    cases hf : assocFind st c with
    | none => rw [hf] at h; simp at h
    | some ln =>
      rw [hf] at h
      cases hg : gatherContours st cs with
      | none => rw [hg] at h; simp at h
      | some rest =>
        rw [hg] at h
        simp only [Option.some.injEq] at h
        cases i with
        | zero =>
          refine ⟨ln, by simpa using hf, ?_⟩
          rw [← h]
          simp
        | succ i =>
          have := ih rest hg i (Nat.lt_of_succ_lt_succ hi)
          simpa [← h] using this

theorem getD_snoc_last (l : List ℚ) (x : ℚ) :
    (l ++ [x]).getD ((l ++ [x]).length - 1) 0 = x := by
  induction l with
  | nil => rfl
  | cons a as ih => simp [ih]

/-- The `current_offset` threaded by the sibling loop is the last computed
offset. -/
theorem mergeChildrenAux_cur_last (s : ℚ) :
    ∀ (cs : List Contour) (merged : Contour) (offsets : List ℚ) (cur : ℚ),
      offsets.getD (offsets.length - 1) 0 = cur →
      (mergeChildrenAux s cs merged offsets cur).2.2
        = (mergeChildrenAux s cs merged offsets cur).2.1.getD
            ((mergeChildrenAux s cs merged offsets cur).2.1.length - 1) 0 := by
  intro cs
  induction cs with
  | nil =>
    intro merged offsets cur hlast
    simpa [mergeChildrenAux] using hlast.symm
  | cons c cs ih =>
    intro merged offsets cur hlast
    simp only [mergeChildrenAux]
    exact ih _ _ _ (getD_snoc_last offsets _)

theorem mergeChildren_cur_last (s : ℚ) (c : Contour) (cs : List Contour) :
    (mergeChildren s (c :: cs)).2.2
      = (mergeChildren s (c :: cs)).2.1.getD
          ((mergeChildren s (c :: cs)).2.1.length - 1) 0 :=
  mergeChildrenAux_cur_last s cs c [0] 0 rfl

theorem mergeChildren_offsets_length (s : ℚ) :
    ∀ (cts : List Contour), (mergeChildren s cts).2.1.length = cts.length := by
  intro cts
  cases cts with
  | nil => rfl
  | cons c cs =>
    rw [mergeChildren_offsets]
    simp [newOffsets_length]

/-- Claim C8: after `first_walk` processes an internal node, the stored
layout node carries offset 0 and a contour whose depth-0 level is the
node's own width centered on it, and whose deeper levels are the merged
children contour shifted left by half the children-group span (half of
`current_offset`, the group offset of the last child), so that the group's
first and last children end symmetric about the parent's center; each
child's recorded `offset_x` is its offset within the children group plus
that leftward group shift. -/
theorem first_walk_internal_recenters (p : NodeDimensionProvider)
    (cfg : LayoutConfig) (fuel : Nat) (node : Nat) (st st' : LayoutState)
    (hrun : first_walk p cfg (fuel + 1) node st = some st')
    (hne : p.get_children node ≠ [])
    (hnodup : (p.get_children node).Nodup)
    (hself : node ∉ p.get_children node) :
    ∃ st1 contours,
      walkList (fun c s => first_walk p cfg fuel c s) (p.get_children node) st
          = some st1 ∧
      gatherContours st1 (p.get_children node) = some contours ∧
      assocFind st' node = some
        { offset_x := 0
          contour := (-(p.get_size node).1 / 2, (p.get_size node).1 / 2) ::
            (mergeChildren cfg.horizontal_spacing contours).1.map
              (fun lr =>
                (lr.1 + -((mergeChildren cfg.horizontal_spacing contours).2.2 / 2),
                 lr.2 + -((mergeChildren cfg.horizontal_spacing contours).2.2 / 2)))
          width := (p.get_size node).1
          height := (p.get_size node).2 } ∧
      (∀ i : Nat, i < (p.get_children node).length →
        (assocFind st' ((p.get_children node).getD i 0)).map LayoutNode.offset_x
          = some ((mergeChildren cfg.horizontal_spacing contours).2.1.getD i 0
              + -((mergeChildren cfg.horizontal_spacing contours).2.2 / 2))) ∧
      ((mergeChildren cfg.horizontal_spacing contours).2.1.getD 0 0
          + -((mergeChildren cfg.horizontal_spacing contours).2.2 / 2))
        + ((mergeChildren cfg.horizontal_spacing contours).2.1.getD
            ((p.get_children node).length - 1) 0
          + -((mergeChildren cfg.horizontal_spacing contours).2.2 / 2)) = 0 := by
  have hie : (p.get_children node).isEmpty = false := by
    cases h : p.get_children node with
    | nil => exact absurd h hne
    | cons a l => rfl
  simp only [first_walk, hie, Bool.false_eq_true, if_false] at hrun
  split at hrun
  · exact absurd hrun (by simp)
  · rename_i st1 hw
    split at hrun
    · exact absurd hrun (by simp)
    · rename_i contours hg
      simp only [Option.some.injEq] at hrun
      subst hrun
      have hlc : contours.length = (p.get_children node).length :=
        gatherContours_length st1 (p.get_children node) contours hg
      have hlo : (mergeChildren cfg.horizontal_spacing contours).2.1.length
          = (p.get_children node).length := by
        rw [mergeChildren_offsets_length, hlc]
      refine ⟨st1, contours, hw, hg, ?_, ?_, ?_⟩
      · simp [stateInsert, assocFind, buildInternal]
      · intro i hi
        have hi' : i < (p.get_children node).length := hi
        have hmemi : (p.get_children node).getD i 0 ∈ p.get_children node := by
          rw [List.getD_eq_getElem _ _ hi']
          exact List.getElem_mem _
        have hnei : node ≠ (p.get_children node).getD i 0 := by
          intro he
          rw [← he] at hmemi
          exact hself hmemi
        have hlo2 : i < (buildInternal (p.get_size node).1 (p.get_size node).2
            cfg.horizontal_spacing contours).2.length := by
          simp only [buildInternal, List.length_map]
          omega
        have hzb : i < ((p.get_children node).zip
            (buildInternal (p.get_size node).1 (p.get_size node).2
              cfg.horizontal_spacing contours).2).length := by
          simp only [List.length_zip]
          omega
        have hzi : ((p.get_children node).zip
            (buildInternal (p.get_size node).1 (p.get_size node).2
              cfg.horizontal_spacing contours).2)[i]
            = ((p.get_children node)[i],
              (buildInternal (p.get_size node).1 (p.get_size node).2
                cfg.horizontal_spacing contours).2[i]) :=
          List.getElem_zip
        have hmem : ((p.get_children node).getD i 0,
            (buildInternal (p.get_size node).1 (p.get_size node).2
              cfg.horizontal_spacing contours).2.getD i 0)
              ∈ (p.get_children node).zip
                (buildInternal (p.get_size node).1 (p.get_size node).2
                  cfg.horizontal_spacing contours).2 := by
          rw [List.getD_eq_getElem _ _ hi', List.getD_eq_getElem _ _ hlo2, ← hzi]
          exact List.getElem_mem _
        have hkeys : (((p.get_children node).zip
            (buildInternal (p.get_size node).1 (p.get_size node).2
              cfg.horizontal_spacing contours).2).map Prod.fst).Nodup := by
          rw [List.map_fst_zip]
          · exact hnodup
          · simp only [buildInternal, List.length_map]
            omega
        obtain ⟨ln, hln, hlnc⟩ :=
          gatherContours_find st1 (p.get_children node) contours hg i hi'
        rw [stateInsert]
        show (assocFind (_ :: _) _).map _ = _
        rw [assocFind]
        rw [if_neg hnei,
          assocFind_updateOffsets_of_mem _ _ _ _ hmem hkeys, hln]
        show some ((buildInternal (p.get_size node).1 (p.get_size node).2
            cfg.horizontal_spacing contours).2.getD i 0)
          = some ((mergeChildren cfg.horizontal_spacing contours).2.1.getD i 0
              + -((mergeChildren cfg.horizontal_spacing contours).2.2 / 2))
        have hmi : i < (mergeChildren cfg.horizontal_spacing contours).2.1.length := by
          omega
        simp only [buildInternal, Option.some.injEq]
        rw [List.getD_eq_getElem _ _ (by simpa using hmi), List.getElem_map,
          List.getD_eq_getElem _ _ hmi]
      · have hclen : 0 < contours.length := by
          rw [hlc]
          cases h : p.get_children node with
          | nil => exact absurd h hne
          | cons a l => simp
        cases hc : contours with
        | nil => rw [hc] at hclen; simp at hclen
        | cons c0 cs0 =>
          subst hc
          have h0 : (mergeChildren cfg.horizontal_spacing (c0 :: cs0)).2.1.getD 0 0
              = 0 := by
            rw [mergeChildren_offsets]
            rfl
          have hcur : (mergeChildren cfg.horizontal_spacing (c0 :: cs0)).2.2
              = (mergeChildren cfg.horizontal_spacing (c0 :: cs0)).2.1.getD
                  ((p.get_children node).length - 1) 0 := by
            rw [mergeChildren_cur_last]
            have hlen3 : (mergeChildren cfg.horizontal_spacing (c0 :: cs0)).2.1.length
                = (p.get_children node).length := by
              rw [mergeChildren_offsets_length]
              omega
            rw [hlen3]
          rw [h0, ← hcur]
          ring

/-- The dimension provider `layout_tree` builds over `tree7`. -/
def provider7 : NodeDimensionProvider :=
  TreeizeAdapter_new tree7 none (fun _ => true) (fun _ => true)
    LayoutConfig.default

/-- The layout state produced by `first_walk` on `tree7` from the root. -/
def firstWalkResult7 : LayoutState :=
  [(0, { offset_x := 0, contour := [(-100, 100), (-300, 300)],
         width := 200, height := 150 }),
   (2, { offset_x := 200, contour := [(-100, 100)], width := 200, height := 150 }),
   (1, { offset_x := -200, contour := [(-100, 100)], width := 200, height := 150 })]

/-- Witness for C8 on the concrete `tree7` root with children 1 and 2. -/
theorem first_walk_internal_recenters_witness :
    ∃ st1 contours,
      walkList (fun c s => first_walk provider7 LayoutConfig.default 1 c s)
          (provider7.get_children 0) [] = some st1 ∧
      gatherContours st1 (provider7.get_children 0) = some contours ∧
      assocFind firstWalkResult7 0 = some
        { offset_x := 0
          contour := (-(provider7.get_size 0).1 / 2, (provider7.get_size 0).1 / 2) ::
            (mergeChildren LayoutConfig.default.horizontal_spacing contours).1.map
              (fun lr =>
                (lr.1 + -((mergeChildren LayoutConfig.default.horizontal_spacing
                    contours).2.2 / 2),
                 lr.2 + -((mergeChildren LayoutConfig.default.horizontal_spacing
                    contours).2.2 / 2)))
          width := (provider7.get_size 0).1
          height := (provider7.get_size 0).2 } ∧
      (∀ i : Nat, i < (provider7.get_children 0).length →
        (assocFind firstWalkResult7 ((provider7.get_children 0).getD i 0)).map
            LayoutNode.offset_x
          = some ((mergeChildren LayoutConfig.default.horizontal_spacing
                contours).2.1.getD i 0
              + -((mergeChildren LayoutConfig.default.horizontal_spacing
                contours).2.2 / 2))) ∧
      ((mergeChildren LayoutConfig.default.horizontal_spacing contours).2.1.getD 0 0
          + -((mergeChildren LayoutConfig.default.horizontal_spacing
              contours).2.2 / 2))
        + ((mergeChildren LayoutConfig.default.horizontal_spacing contours).2.1.getD
            ((provider7.get_children 0).length - 1) 0
          + -((mergeChildren LayoutConfig.default.horizontal_spacing
              contours).2.2 / 2)) = 0 :=
  first_walk_internal_recenters provider7 LayoutConfig.default 1 0 [] firstWalkResult7
    (by
      norm_num [provider7, firstWalkResult7, tree7, LayoutConfig.default,
        TreeizeAdapter_new, adapter_get_size, children_of_wires, first_walk,
        walkList, gatherContours, updateOffsets, assocUpdate, assocFind,
        stateInsert, buildInternal, mergeChildren, mergeChildrenAux,
        mergeContour, requiredShift, max_def, min_def])
    (by decide) (by decide) (by decide)

end Treeize4
